import Mathlib

/-!
Shallow embedding of the Enigma-CLI simulator (src/main.cpp).

Machine integers are modelled as `Nat` with explicit reduction modulo
`2^64` (for `size_t` arithmetic) and `2^32` (for `uint32_t` arithmetic)
where the C++ code can overflow or underflow.  Every vector subscript of
the C++ (`operator[]`, undefined behaviour when out of range) is modelled
as `List.get?`, so an out-of-range access surfaces as `none` and fallible
operations return `Option`.
-/

namespace Enigma

/-- Unsigned 64-bit subtraction `a - b` as performed on `size_t`
(for `a < 2^64` and `b ≤ 2^64`). -/
def sub64 (a b : Nat) : Nat := (a + 2 ^ 64 - b) % 2 ^ 64

/-- Unsigned 32-bit subtraction `a - b` as performed when an `int`
difference is converted to `uint32_t` (for `a < 2^32` and `b ≤ 2^32`). -/
def sub32 (a b : Nat) : Nat := (a + 2 ^ 32 - b) % 2 ^ 32

/-- The uppercase alphabet `ALPHA` of the source. -/
def ALPHA : String := "ABCDEFGHIJKLMNOPQRSTUVWXYZ"

namespace rotors

/-- Wiring `rotors::etw_alpha`. -/
def etw_alpha : String := "ABCDEFGHIJKLMNOPQRSTUVWXYZ"

/-- Wiring `rotors::i` (historical rotor I). -/
def i : String := "EKMFLGDQVZNTOWYHXUSPAIBRCJ"

/-- Wiring `rotors::ukw_b` (historical reflector UKW-B). -/
def ukw_b : String := "YRUHQSLDPXNGOKMIEBFZCWVJAT"

end rotors

/-- `make_notches(len, vals)`: a vector of `len` zeros with a `1` written
at every index in `vals`. -/
def make_notches (len : Nat) (vals : List Nat) : List Nat :=
  vals.foldl (fun ret v => ret.set v 1) (List.replicate len 0)

/-- The `Rotor` class: forward and backward substitution tables, notch
flags, alphabet length and current position. -/
structure Rotor where
  shuffle_fwd : List Nat
  shuffle_bck : List Nat
  notches : List Nat
  len : Nat
  pos : Nat

/-- The inverse-table construction loop of the `Rotor` constructor:
`for (auto elem : shuffle_fwd_) shuffle_bck_[elem] = i++;`. -/
def writeBck : List Nat → Nat → List Nat → List Nat
  | [], _, bck => bck
  | e :: es, i, bck => writeBck es (i + 1) (bck.set e i)

/-- `Rotor::Rotor(std::string_view shuffle, Shuffle notches, size_type
initial_pos, size_type ring_setting)`: maps each wiring character `ch` to
`ch - 'A'` (in `uint32_t` arithmetic), builds the backward table by the
inversion loop over a zero-initialised vector of the wiring's size, and
stores the notches and initial position.  `ring_setting` is accepted but
unused, exactly as in the source; the constructor has no error path. -/
def Rotor.make (shuffle : String) (notches : List Nat)
    (initial_pos : Nat) (ring_setting : Nat) : Rotor :=
  let fwd := shuffle.toList.map (fun ch => sub32 ch.toNat 65)
  { shuffle_fwd := fwd
    shuffle_bck := writeBck fwd 0 (List.replicate shuffle.toList.length 0)
    notches := notches
    len := fwd.length
    pos := initial_pos }

/-- `Rotor::rotate(turnover)`: `pos_ = (pos_ - turnover) % len_` in
`size_t` arithmetic, then return `notches_[pos_]` at the new position. -/
def Rotor.rotate (r : Rotor) (turnover : Nat) : Rotor × Option Nat :=
  let pos := sub64 r.pos turnover % r.len
  ({ r with pos := pos }, r.notches.get? pos)

/-- `Rotor::connect_fwd(character)`:
`shuffle_fwd_[(character + pos_) % len_]`. -/
def Rotor.connect_fwd (r : Rotor) (character : Nat) : Option Nat :=
  r.shuffle_fwd.get? ((character + r.pos) % r.len)

/-- `Rotor::connect_bck(character)`:
`shuffle_bck_[(character + pos_) % len_]`. -/
def Rotor.connect_bck (r : Rotor) (character : Nat) : Option Nat :=
  r.shuffle_bck.get? ((character + r.pos) % r.len)

/-- The `EnigmaMachine` class: rotor stack, plugboard, entry wheel and
reflector. -/
structure EnigmaMachine where
  rotors : List Rotor
  plugboard : List Nat
  etw : Rotor
  ukw : Rotor

/-- `EnigmaMachine::EnigmaMachine()`: three rotors with rotor-I wiring and
a notch at `'Z' - 'A' = 25`, an identity plugboard (`std::iota`), the
alphabetic entry wheel and the UKW-B reflector, all at position 0. -/
def EnigmaMachine.make : EnigmaMachine :=
  { rotors := [Rotor.make rotors.i (make_notches 26 [25]) 0 0,
               Rotor.make rotors.i (make_notches 26 [25]) 0 0,
               Rotor.make rotors.i (make_notches 26 [25]) 0 0]
    plugboard := List.range 26
    etw := Rotor.make rotors.etw_alpha (make_notches 26 []) 0 0
    ukw := Rotor.make rotors.ukw_b (make_notches 26 []) 0 0 }

/-- The forward pass `for (auto &rotor : rotors_) scratch =
rotor.connect_fwd(scratch);` of `cipher_one`. -/
def passFwd : List Rotor → Nat → Option Nat
  | [], scratch => some scratch
  | r :: rs, scratch => (r.connect_fwd scratch).bind (passFwd rs)

/-- The backward pass `for (auto &rotor : make_reverse(rotors_)) scratch =
rotor.connect_bck(scratch);` of `cipher_one`, applied to the already
reversed rotor list. -/
def passBck : List Rotor → Nat → Option Nat
  | [], scratch => some scratch
  | r :: rs, scratch => (r.connect_bck scratch).bind (passBck rs)

/-- `EnigmaMachine::cipher_one(c)`: `scratch = c - 'A'` (as `uint32_t`),
plugboard, entry wheel forward, rotors forward, reflector, rotors backward
(reverse order), entry wheel backward, plugboard, then `scratch + 'A'`
as the output character.  The debug printing of the source is ignored. -/
def EnigmaMachine.cipher_one (m : EnigmaMachine) (c : Char) : Option Char :=
  (m.plugboard.get? (sub32 c.toNat 65)).bind fun s1 =>
  (m.etw.connect_fwd s1).bind fun s2 =>
  (passFwd m.rotors s2).bind fun s3 =>
  (m.ukw.connect_fwd s3).bind fun s4 =>
  (passBck m.rotors.reverse s4).bind fun s5 =>
  (m.etw.connect_bck s5).bind fun s6 =>
  (m.plugboard.get? s6).map fun s7 => Char.ofNat (s7 + 65)

/-- The stepping loop of `EnigmaMachine::keydown()`: each rotor's `rotate`
receives the previous rotor's return value as its turnover. -/
def stepRotors : List Rotor → Nat → Option (List Rotor)
  | [], _ => some []
  | r :: rs, turnover =>
    (r.rotate turnover).2.bind fun t =>
      (stepRotors rs t).map fun rs2 => (r.rotate turnover).1 :: rs2

/-- `EnigmaMachine::keydown()`: run the stepping loop over the rotor stack
with an initial turnover of `1`. -/
def EnigmaMachine.keydown (m : EnigmaMachine) : Option EnigmaMachine :=
  (stepRotors m.rotors 1).map fun rs => { m with rotors := rs }

/-- Iterate `keydown` a given number of times from a given machine. -/
def iterKeydown : Nat → EnigmaMachine → Option EnigmaMachine
  | 0, m => some m
  | n + 1, m => m.keydown.bind (iterKeydown n)

/-- The machine after `n` calls to `keydown` from construction. -/
def machineAfter (n : Nat) : Option EnigmaMachine :=
  iterKeydown n EnigmaMachine.make

/-- The read loop of `main`: for each input character, `keydown` then
`cipher_one`, collecting the output characters and the final machine. -/
def mainLoop : EnigmaMachine → List Char → Option (List Char × EnigmaMachine)
  | m, [] => some ([], m)
  | m, c :: cs =>
    m.keydown.bind fun m1 =>
    (m1.cipher_one c).bind fun o =>
    (mainLoop m1 cs).map fun p => (o :: p.1, p.2)

/-- `main` over a finite input: one `keydown` before the loop, then the
read loop. -/
def mainProg (input : List Char) : Option (List Char × EnigmaMachine) :=
  EnigmaMachine.make.keydown.bind fun m0 => mainLoop m0 input

/-- Structural well-formedness of a rotor as constructed by the machine:
26-element tables with in-range entries, position in range, and 0/1 notch
flags. -/
def RotorWF (r : Rotor) : Prop :=
  r.len = 26 ∧ r.pos < 26 ∧
  r.shuffle_fwd.length = 26 ∧ r.shuffle_bck.length = 26 ∧
  r.notches.length = 26 ∧
  (∀ v ∈ r.shuffle_fwd, v < 26) ∧ (∀ v ∈ r.shuffle_bck, v < 26) ∧
  (∀ v ∈ r.notches, v < 2)

instance (r : Rotor) : Decidable (RotorWF r) := by
  unfold RotorWF; infer_instance

/-- Structural well-formedness of a machine state. -/
def MachineWF (m : EnigmaMachine) : Prop :=
  (∀ r ∈ m.rotors, RotorWF r) ∧ RotorWF m.etw ∧ RotorWF m.ukw ∧
  m.plugboard.length = 26 ∧ (∀ v ∈ m.plugboard, v < 26)

instance (m : EnigmaMachine) : Decidable (MachineWF m) := by
  unfold MachineWF; infer_instance

/-! Helper lemmas about the inverse-table construction loop. -/

lemma writeBck_length (l : List Nat) : ∀ (i : Nat) (bck : List Nat),
    (writeBck l i bck).length = bck.length := by
  induction l with
  | nil => intro i bck; rfl
  | cons e es ih => intro i bck; rw [writeBck, ih, List.length_set]

lemma writeBck_not_mem (l : List Nat) : ∀ (i : Nat) (bck : List Nat) (j : Nat),
    j ∉ l → (writeBck l i bck).get? j = bck.get? j := by
  induction l with
  | nil => intro i bck j _; rfl
  | cons e es ih =>
    intro i bck j hj
    have h1 : j ≠ e := fun h => hj (h ▸ List.mem_cons_self e es)
    have h2 : j ∉ es := fun h => hj (List.mem_cons_of_mem e h)
    rw [writeBck, ih _ _ _ h2, List.get?_set_ne _ _ h1.symm]

lemma writeBck_found (l1 : List Nat) : ∀ (j : Nat) (l2 : List Nat) (i : Nat)
    (bck : List Nat), j ∉ l2 → j < bck.length →
    (writeBck (l1 ++ j :: l2) i bck).get? j = some (i + l1.length) := by
  induction l1 with
  | nil =>
    intro j l2 i bck hj hlen
    rw [List.nil_append, writeBck, writeBck_not_mem _ _ _ _ hj,
      List.get?_set_eq_of_lt _ hlen]
    simp
  | cons a l1 ih =>
    intro j l2 i bck hj hlen
    rw [List.cons_append, writeBck, ih _ _ _ _ hj (by rwa [List.length_set])]
    congr 1
    simp only [List.length_cons]
    omega

lemma writeBck_inverse (fwd : List Nat) (hlen : fwd.length = 26)
    (hnodup : fwd.Nodup) (hmem : ∀ v ∈ fwd, v < 26) (i : Nat) (hi : i < 26) :
    (writeBck fwd 0 (List.replicate 26 0)).get? (fwd.getD i 0) = some i := by
  have hi' : i < fwd.length := by omega
  have hget : fwd.getD i 0 = fwd.get ⟨i, hi'⟩ := by
    show (fwd.get? i).getD 0 = fwd.get ⟨i, hi'⟩
    rw [List.get?_eq_get hi']
    rfl
  have helt : fwd.get ⟨i, hi'⟩ < 26 := hmem _ (List.get_mem fwd i hi')
  have hsplit : fwd = fwd.take i ++ fwd.get ⟨i, hi'⟩ :: fwd.drop (i + 1) := by
    conv_lhs => rw [← List.take_append_drop i fwd]
    rw [List.drop_eq_get_cons hi']
  have hdropnodup : (fwd.get ⟨i, hi'⟩ :: fwd.drop (i + 1)).Nodup := by
    rw [← List.drop_eq_get_cons hi']
    exact (List.drop_sublist i fwd).nodup hnodup
  have hnotmem : fwd.get ⟨i, hi'⟩ ∉ fwd.drop (i + 1) :=
    (List.nodup_cons.mp hdropnodup).1
  obtain ⟨e, he⟩ : ∃ e, fwd.get ⟨i, hi'⟩ = e := ⟨_, rfl⟩
  rw [he] at hsplit hnotmem helt
  rw [hget, he]
  conv_lhs => rw [hsplit]
  rw [writeBck_found _ _ _ _ _ hnotmem (by rw [List.length_replicate]; omega)]
  congr 1
  rw [List.length_take]
  omega

/-! Helper lemmas: well-formedness is preserved along the cipher path. -/

lemma machineWF_make : MachineWF EnigmaMachine.make := by decide

lemma stepRotors_wf (rs : List Rotor) : ∀ (t : Nat), (∀ r ∈ rs, RotorWF r) →
    t < 2 → ∃ rs2, stepRotors rs t = some rs2 ∧ ∀ r ∈ rs2, RotorWF r := by
  induction rs with
  | nil => intro t _ _; exact ⟨[], rfl, by simp⟩
  | cons r rs ih =>
    intro t h ht
    obtain ⟨hlen, hpos, hf, hb, hn, hfv, hbv, hnv⟩ := h r (List.mem_cons_self r rs)
    have hpos2 : sub64 r.pos t % r.len < 26 := by
      rw [hlen]
      exact Nat.mod_lt _ (by omega)
    have hidx : sub64 r.pos t % r.len < r.notches.length := by omega
    have hv : r.notches.get? (sub64 r.pos t % r.len) =
        some (r.notches.get ⟨_, hidx⟩) := List.get?_eq_get hidx
    have hv2 : r.notches.get ⟨_, hidx⟩ < 2 :=
      hnv _ (List.get_mem r.notches _ hidx)
    obtain ⟨rs2, hrs2, hwf2⟩ :=
      ih _ (fun x hx => h x (List.mem_cons_of_mem r hx)) hv2
    refine ⟨(r.rotate t).1 :: rs2, ?_, ?_⟩
    · show (r.rotate t).2.bind _ = _
      have h2 : (r.rotate t).2 = r.notches.get? (sub64 r.pos t % r.len) := rfl
      rw [h2, hv]
      show (stepRotors rs _).map _ = _
      rw [hrs2]
      rfl
    · intro x hx
      rcases List.mem_cons.mp hx with h1 | h2
      · subst h1
        show (⟨r.shuffle_fwd, r.shuffle_bck, r.notches, r.len,
          sub64 r.pos t % r.len⟩ : Rotor).len = 26 ∧ _
        exact ⟨hlen, hpos2, hf, hb, hn, hfv, hbv, hnv⟩
      · exact hwf2 x h2

lemma keydown_wf (m : EnigmaMachine) (h : MachineWF m) :
    ∃ m2, m.keydown = some m2 ∧ MachineWF m2 := by
  obtain ⟨hr, he, hu, hp, hpv⟩ := h
  obtain ⟨rs2, hrs2, hwf2⟩ := stepRotors_wf m.rotors 1 hr (by omega)
  refine ⟨{ m with rotors := rs2 }, ?_, ?_⟩
  · show (stepRotors m.rotors 1).map _ = _
    rw [hrs2]
    rfl
  · exact ⟨hwf2, he, hu, hp, hpv⟩

lemma iterKeydown_wf (n : Nat) : ∀ (m : EnigmaMachine), MachineWF m →
    ∃ m2, iterKeydown n m = some m2 ∧ MachineWF m2 := by
  induction n with
  | zero => intro m h; exact ⟨m, rfl, h⟩
  | succ n ih =>
    intro m h
    obtain ⟨m1, h1, hw1⟩ := keydown_wf m h
    obtain ⟨m2, h2, hw2⟩ := ih m1 hw1
    refine ⟨m2, ?_, hw2⟩
    show m.keydown.bind (iterKeydown n) = some m2
    rw [h1]
    exact h2

lemma connect_fwd_ok (r : Rotor) (hr : RotorWF r) (s : Nat) :
    ∃ s2, r.connect_fwd s = some s2 ∧ s2 < 26 := by
  obtain ⟨hlen, _, hf, _, _, hfv, _, _⟩ := hr
  have hidx : (s + r.pos) % r.len < r.shuffle_fwd.length := by
    rw [hf, hlen]
    exact Nat.mod_lt _ (by omega)
  exact ⟨_, List.get?_eq_get hidx, hfv _ (List.get_mem r.shuffle_fwd _ hidx)⟩

lemma connect_bck_ok (r : Rotor) (hr : RotorWF r) (s : Nat) :
    ∃ s2, r.connect_bck s = some s2 ∧ s2 < 26 := by
  obtain ⟨hlen, _, _, hb, _, _, hbv, _⟩ := hr
  have hidx : (s + r.pos) % r.len < r.shuffle_bck.length := by
    rw [hb, hlen]
    exact Nat.mod_lt _ (by omega)
  exact ⟨_, List.get?_eq_get hidx, hbv _ (List.get_mem r.shuffle_bck _ hidx)⟩

lemma passFwd_ok (rs : List Rotor) : ∀ (s : Nat), (∀ r ∈ rs, RotorWF r) →
    ∃ s2, passFwd rs s = some s2 := by
  induction rs with
  | nil => intro s _; exact ⟨s, rfl⟩
  | cons r rs ih =>
    intro s h
    obtain ⟨s1, hs1, _⟩ := connect_fwd_ok r (h r (List.mem_cons_self r rs)) s
    obtain ⟨s2, hs2⟩ := ih s1 (fun x hx => h x (List.mem_cons_of_mem r hx))
    refine ⟨s2, ?_⟩
    show (r.connect_fwd s).bind _ = _
    rw [hs1]
    exact hs2

lemma passBck_ok (rs : List Rotor) : ∀ (s : Nat), (∀ r ∈ rs, RotorWF r) →
    ∃ s2, passBck rs s = some s2 := by
  induction rs with
  | nil => intro s _; exact ⟨s, rfl⟩
  | cons r rs ih =>
    intro s h
    obtain ⟨s1, hs1, _⟩ := connect_bck_ok r (h r (List.mem_cons_self r rs)) s
    obtain ⟨s2, hs2⟩ := ih s1 (fun x hx => h x (List.mem_cons_of_mem r hx))
    refine ⟨s2, ?_⟩
    show (r.connect_bck s).bind _ = _
    rw [hs1]
    exact hs2

lemma sub32_letter (a : Nat) (h1 : 65 ≤ a) (h2 : a ≤ 2 ^ 32) :
    sub32 a 65 = a - 65 := by
  unfold sub32
  have h3 : a + 2 ^ 32 - 65 = (a - 65) + 2 ^ 32 := by omega
  rw [h3, Nat.add_mod_right, Nat.mod_eq_of_lt (by omega)]

lemma cipher_isSome (m : EnigmaMachine) (h : MachineWF m) (c : Char)
    (h1 : 65 ≤ c.toNat) (h2 : c.toNat ≤ 90) : (m.cipher_one c).isSome := by
  obtain ⟨hr, he, hu, hp, hpv⟩ := h
  have hidx : sub32 c.toNat 65 = c.toNat - 65 :=
    sub32_letter c.toNat h1 (by omega)
  have hidx26 : sub32 c.toNat 65 < m.plugboard.length := by
    rw [hidx, hp]
    omega
  have hrrev : ∀ r ∈ m.rotors.reverse, RotorWF r :=
    fun r hx => hr r (List.mem_reverse.mp hx)
  have hplug1 : m.plugboard.get? (sub32 c.toNat 65) =
      some (m.plugboard.get ⟨_, hidx26⟩) := List.get?_eq_get hidx26
  obtain ⟨s2, hs2, _⟩ := connect_fwd_ok m.etw he (m.plugboard.get ⟨_, hidx26⟩)
  obtain ⟨s3, hs3⟩ := passFwd_ok m.rotors s2 hr
  obtain ⟨s4, hs4, _⟩ := connect_fwd_ok m.ukw hu s3
  obtain ⟨s5, hs5⟩ := passBck_ok m.rotors.reverse s4 hrrev
  obtain ⟨s6, hs6, hs6v⟩ := connect_bck_ok m.etw he s5
  have hidx6 : s6 < m.plugboard.length := by
    rw [hp]
    exact hs6v
  have hplug2 : m.plugboard.get? s6 = some (m.plugboard.get ⟨_, hidx6⟩) :=
    List.get?_eq_get hidx6
  unfold EnigmaMachine.cipher_one
  rw [hplug1, Option.some_bind, hs2, Option.some_bind, hs3, Option.some_bind,
    hs4, Option.some_bind, hs5, Option.some_bind, hs6, Option.some_bind,
    hplug2]
  rfl

lemma mainLoop_state (input : List Char) : ∀ (m : EnigmaMachine), MachineWF m →
    (∀ c ∈ input, 65 ≤ c.toNat ∧ c.toNat ≤ 90) →
    ∃ p, mainLoop m input = some p ∧ iterKeydown input.length m = some p.2 := by
  induction input with
  | nil => intro m _ _; exact ⟨([], m), rfl, rfl⟩
  | cons c cs ih =>
    intro m hwf hv
    obtain ⟨m1, hk, hwf1⟩ := keydown_wf m hwf
    have hc := hv c (List.mem_cons_self c cs)
    obtain ⟨o, ho⟩ :=
      Option.isSome_iff_exists.mp (cipher_isSome m1 hwf1 c hc.1 hc.2)
    obtain ⟨p, hp, hit⟩ := ih m1 hwf1 (fun x hx => hv x (List.mem_cons_of_mem c hx))
    refine ⟨(o :: p.1, p.2), ?_, ?_⟩
    · show m.keydown.bind _ = _
      rw [hk, Option.some_bind, ho, Option.some_bind, hp]
      rfl
    · show m.keydown.bind (iterKeydown cs.length) = some p.2
      rw [hk, Option.some_bind]
      exact hit

/-! Claim theorems. -/

/-- Claim C1 (refuted on the code): reciprocity fails at a reachable
position tuple.  After one `keydown` the rotor positions are (15, 0, 0);
there `cipher_one(cipher_one('A'))` is `'V'`, not `'A'`.  The claimed
reciprocity would need `connect_bck` to invert `connect_fwd` at every
position, but both omit the subtraction of the position after the table
lookup, so it only holds with every rotor at position 0. -/
theorem cipher_one_not_reciprocal :
    ((machineAfter 1).bind fun m => (m.cipher_one 'A').bind m.cipher_one)
      = some 'V' ∧
    ((machineAfter 1).bind fun m => (m.cipher_one 'A').bind m.cipher_one)
      ≠ some 'A' := by
  decide

/-- Claim C2 (refuted on the code): the forward-then-backward round trip
through one rotor is not the identity at nonzero positions.  For the
rotor-I wiring at position 1, index 0 maps forward and then backward to 4,
not back to 0: `shuffle_bck[(shuffle_fwd[(0+1)%26] + 1) % 26] = 4`. -/
theorem rotor_roundtrip_fails :
    ((Rotor.make rotors.i (make_notches 26 [25]) 1 0).connect_fwd 0).bind
      (Rotor.make rotors.i (make_notches 26 [25]) 1 0).connect_bck
      = some 4 ∧ (4 : Nat) ≠ 0 := by
  decide

/-- Claim C3 (refuted on the code): `rotate` computes
`pos_ = (pos_ - turnover) % len_` in unsigned 64-bit (`size_t`)
arithmetic, so position 0 with turnover 1 becomes
`(2^64 - 1) % 26 = 15`, not the claimed `length - 1 = 25`. -/
theorem rotate_underflow :
    ((Rotor.make rotors.i (make_notches 26 [25]) 0 0).rotate 1).1.pos = 15 ∧
    (15 : Nat) ≠ 25 := by
  decide

/-- Claim C4: for every wiring string that is a permutation of the
alphabet, the constructed forward table is a bijection over 0..25 (it is a
permutation of `0, ..., 25`) and the backward table built by the inversion
loop is its exact inverse: `backward[forward[i]] = i` for all `i < 26`. -/
theorem substitution_table_inverse (s : String) (notches : List Nat)
    (hs : s.toList.Perm ALPHA.toList) :
    (Rotor.make s notches 0 0).shuffle_fwd.Perm (List.range 26) ∧
    ∀ i < 26, (Rotor.make s notches 0 0).shuffle_bck.get?
      ((Rotor.make s notches 0 0).shuffle_fwd.getD i 0) = some i := by
  have hfwd : (Rotor.make s notches 0 0).shuffle_fwd
      = s.toList.map (fun ch => sub32 ch.toNat 65) := rfl
  have hbck : (Rotor.make s notches 0 0).shuffle_bck
      = writeBck (s.toList.map (fun ch => sub32 ch.toNat 65)) 0
        (List.replicate s.toList.length 0) := rfl
  have hperm : (s.toList.map (fun ch => sub32 ch.toNat 65)).Perm
      (List.range 26) := by
    have h1 := hs.map (fun ch => sub32 ch.toNat 65)
    have h2 : ALPHA.toList.map (fun ch => sub32 ch.toNat 65)
        = List.range 26 := by decide
    rw [h2] at h1
    exact h1
  have hlen : (s.toList.map (fun ch => sub32 ch.toNat 65)).length = 26 := by
    rw [hperm.length_eq, List.length_range]
  have hslen : s.toList.length = 26 := by
    rw [← List.length_map s.toList (fun ch => sub32 ch.toNat 65)]
    exact hlen
  have hnodup : (s.toList.map (fun ch => sub32 ch.toNat 65)).Nodup :=
    hperm.symm.nodup (List.nodup_range 26)
  have hmem : ∀ v ∈ s.toList.map (fun ch => sub32 ch.toNat 65), v < 26 := by
    intro v hv
    have := hperm.mem_iff.mp hv
    simpa [List.mem_range] using this
  constructor
  · rw [hfwd]
    exact hperm
  · intro i hi
    rw [hfwd, hbck, hslen]
    exact writeBck_inverse _ hlen hnodup hmem i hi

/-- Claim C4, witness: the rotor-I wiring is a permutation of the
alphabet, and its constructed table satisfies the invariant. -/
theorem substitution_table_inverse_w :
    (Rotor.make rotors.i (make_notches 26 [25]) 0 0).shuffle_fwd.Perm
      (List.range 26) ∧
    ∀ i < 26, (Rotor.make rotors.i (make_notches 26 [25]) 0 0).shuffle_bck.get?
      ((Rotor.make rotors.i (make_notches 26 [25]) 0 0).shuffle_fwd.getD i 0)
      = some i :=
  substitution_table_inverse rotors.i (make_notches 26 [25]) (by decide)

/-- Claim C5: the reflector of the constructed machine (UKW-B at fixed
position 0, applied forward) is a fixed-point-free involution on the
alphabet indices. -/
theorem reflector_involution (x : Nat) (hx : x < 26) :
    EnigmaMachine.make.ukw.connect_fwd x ≠ some x ∧
    (EnigmaMachine.make.ukw.connect_fwd x).bind
      EnigmaMachine.make.ukw.connect_fwd = some x := by
  have h : ∀ y < 26, EnigmaMachine.make.ukw.connect_fwd y ≠ some y ∧
      (EnigmaMachine.make.ukw.connect_fwd y).bind
        EnigmaMachine.make.ukw.connect_fwd = some y := by decide
  exact h x hx

/-- Claim C5, witness at index 0. -/
theorem reflector_involution_w :
    EnigmaMachine.make.ukw.connect_fwd 0 ≠ some 0 ∧
    (EnigmaMachine.make.ukw.connect_fwd 0).bind
      EnigmaMachine.make.ukw.connect_fwd = some 0 :=
  reflector_involution 0 (by decide)

/-- Claim C6 (refuted on the code): after one `keydown` from construction
the fast rotor does not advance by one step mod 26.  Its position goes
from 0 to `(2^64 - 1) % 26 = 15` (the `size_t` underflow of `rotate`),
whereas one decrement step mod 26 would give 25. -/
theorem keydown_fast_rotor_underflow :
    ((EnigmaMachine.make.keydown.bind fun m => m.rotors.get? 0).map Rotor.pos)
      = some 15 ∧
    (15 : Nat) ≠ (0 + 26 - 1) % 26 := by
  decide

/-- Claim C7 (refuted on the code): construction does not fail on a
malformed wiring.  The all-`'A'` wiring (not a permutation) is accepted by
the constructor, which has no error path, and silently yields a corrupt
inverse: `backward[forward[0]] = 25 ≠ 0`. -/
theorem bad_wiring_accepted :
    (Rotor.make "AAAAAAAAAAAAAAAAAAAAAAAAAA" (make_notches 26 []) 0
      0).shuffle_bck.get?
      ((Rotor.make "AAAAAAAAAAAAAAAAAAAAAAAAAA" (make_notches 26 []) 0
        0).shuffle_fwd.getD 0 0) = some 25 ∧
    (25 : Nat) ≠ 0 := by
  decide

/-- Claim C7 as amended: the constructor validates nothing and accepts
every wiring string, building a forward table with one entry per wiring
character (no length or permutation check, no error path). -/
theorem rotor_construction_no_validation (s : String) (notches : List Nat) :
    (Rotor.make s notches 0 0).shuffle_fwd.length = s.toList.length ∧
    (Rotor.make s notches 0 0).len = s.toList.length := by
  constructor
  · exact List.length_map s.toList (fun ch => sub32 ch.toNat 65)
  · exact List.length_map s.toList (fun ch => sub32 ch.toNat 65)

/-- Claim C8 (refuted on the code): `cipher_one` does not reject an
out-of-alphabet character; it performs the out-of-range plugboard lookup.
For `'a'` the index is `'a' - 'A' = 32 ≥ 26`, so the very first lookup is
out of bounds (undefined behaviour in the C++, `none` here). -/
theorem cipher_one_out_of_range_lookup :
    EnigmaMachine.make.plugboard.get? (sub32 'a'.toNat 65) = none ∧
    EnigmaMachine.make.cipher_one 'a' = none := by
  decide

/-- Claim C8 as amended: `cipher_one` performs no input validation; for
every character outside the alphabet (code point below `'A'`, where the
`uint32_t` difference `c - 'A'` wraps around, or above `'Z'`) the first
plugboard index is out of range and the operation has no defined result
(modelled as `none`). -/
theorem cipher_one_invalid_oob (c : Char) (h : c.toNat < 65 ∨ 90 < c.toNat) :
    EnigmaMachine.make.cipher_one c = none := by
  have hc32 : c.toNat < 2 ^ 32 := by
    have hv := c.val.toNat_lt_size
    simp [UInt32.size] at hv
    exact hv
  have hge : 26 ≤ sub32 c.toNat 65 := by
    unfold sub32
    rcases h with h | h
    · rw [Nat.mod_eq_of_lt (by omega)]
      omega
    · have heq : c.toNat + 2 ^ 32 - 65 = (c.toNat - 65) + 2 ^ 32 := by omega
      rw [heq, Nat.add_mod_right, Nat.mod_eq_of_lt (by omega)]
      omega
  have hlen : EnigmaMachine.make.plugboard.length = 26 := by decide
  have hget : EnigmaMachine.make.plugboard.get? (sub32 c.toNat 65) = none := by
    apply List.get?_len_le
    omega
  unfold EnigmaMachine.cipher_one
  rw [hget]
  rfl

/-- Claim C8 as amended, witness at `'0'` (below `'A'`, the wrap-around
path) and `'z'` (above `'Z'`). -/
theorem cipher_one_invalid_oob_w :
    EnigmaMachine.make.cipher_one '0' = none ∧
    EnigmaMachine.make.cipher_one 'z' = none :=
  ⟨cipher_one_invalid_oob '0' (by decide), cipher_one_invalid_oob 'z' (by decide)⟩

/-- Claim C9: from the constructed machine, every state reached by
`keydown` calls is defined (every notch lookup in the stepping chain is in
bounds) and `cipher_one` on a valid character performs only in-bounds
lookups (it returns a result rather than hitting an out-of-range index):
position arithmetic is reduced mod 26 before each table access. -/
theorem cipher_lookups_in_bounds (n : Nat) (c : Char) (h1 : 65 ≤ c.toNat)
    (h2 : c.toNat ≤ 90) :
    ∃ m, machineAfter n = some m ∧ (m.cipher_one c).isSome := by
  obtain ⟨m, hm, hwf⟩ := iterKeydown_wf n EnigmaMachine.make machineWF_make
  exact ⟨m, hm, cipher_isSome m hwf c h1 h2⟩

/-- Claim C9, witness: one `keydown`, character `'B'`. -/
theorem cipher_lookups_in_bounds_w :
    ∃ m, machineAfter 1 = some m ∧ (m.cipher_one 'B').isSome :=
  cipher_lookups_in_bounds 1 'B' (by decide) (by decide)

/-- Claim C10: `main` calls `keydown` once before the read loop and once
per character inside it, so the final machine state after `n` characters
is the constructed machine stepped `n + 1` times, and the first input
character is enciphered with the stack stepped twice. -/
theorem main_preloop_keydown (input : List Char)
    (hv : ∀ c ∈ input, 65 ≤ c.toNat ∧ c.toNat ≤ 90) :
    (mainProg input).map Prod.snd = machineAfter (input.length + 1) ∧
    ((mainProg input).bind fun p => p.1.head?) =
      input.head?.bind fun c => (machineAfter 2).bind fun m =>
        m.cipher_one c := by
  obtain ⟨m0, hk0, hwf0⟩ := keydown_wf EnigmaMachine.make machineWF_make
  obtain ⟨p, hp, hit⟩ := mainLoop_state input m0 hwf0 hv
  constructor
  · have h1 : mainProg input = some p := by
      show EnigmaMachine.make.keydown.bind _ = _
      rw [hk0, Option.some_bind]
      exact hp
    have h2 : machineAfter (input.length + 1) = iterKeydown input.length m0 := by
      show EnigmaMachine.make.keydown.bind (iterKeydown input.length) = _
      rw [hk0, Option.some_bind]
    rw [h1, h2, hit]
    rfl
  · cases input with
    | nil =>
      have h1 : mainProg [] = some ([], m0) := by
        show EnigmaMachine.make.keydown.bind _ = _
        rw [hk0, Option.some_bind]
        rfl
      rw [h1]
      rfl
    | cons c cs =>
      obtain ⟨m1, hk1, hwf1⟩ := keydown_wf m0 hwf0
      have hc := hv c (List.mem_cons_self c cs)
      obtain ⟨o, ho⟩ :=
        Option.isSome_iff_exists.mp (cipher_isSome m1 hwf1 c hc.1 hc.2)
      obtain ⟨p2, hp2, -⟩ :=
        mainLoop_state cs m1 hwf1 (fun x hx => hv x (List.mem_cons_of_mem c hx))
      have h1 : mainProg (c :: cs) = some (o :: p2.1, p2.2) := by
        show EnigmaMachine.make.keydown.bind _ = _
        rw [hk0, Option.some_bind]
        show m0.keydown.bind _ = _
        rw [hk1, Option.some_bind, ho, Option.some_bind, hp2]
        rfl
      have h2 : machineAfter 2 = some m1 := by
        show EnigmaMachine.make.keydown.bind (iterKeydown 1) = some m1
        rw [hk0, Option.some_bind]
        show m0.keydown.bind (iterKeydown 0) = some m1
        rw [hk1, Option.some_bind]
        rfl
      rw [h1, h2]
      show some o = (some c).bind fun c => (some m1).bind fun m =>
        m.cipher_one c
      rw [Option.some_bind, Option.some_bind, ho]

/-- Claim C10, witness at the one-character input `['A']`. -/
theorem main_preloop_keydown_w :
    (mainProg ['A']).map Prod.snd = machineAfter (['A'].length + 1) ∧
    ((mainProg ['A']).bind fun p => p.1.head?) =
      ['A'].head?.bind fun c => (machineAfter 2).bind fun m =>
        m.cipher_one c :=
  main_preloop_keydown ['A'] (by decide)

end Enigma
